import Mathlib

/-!
Verification of the UrbanSound8K CNN feature-extraction notebook
(`3-us8k-cnn-extract-train.ipynb`).

The development shallowly embeds the notebook's Python (2) code:

* `windows(data, window_size)` — the lazy generator of `(start, start + window_size)`
  index pairs; `start` advances by `window_size / 2` (integer division in Python 2).
* `extract_features` / `extract_feature_array` — per-window log-mel tensors plus the
  per-file label parsed from `fn.split('fold')[1].split('-')[1]`.
* `one_hot_encode` — `np.zeros((n_labels, n_unique)); m[arange(n), labels] = 1`.
* `save_folds` — per-fold extraction and one-hot encoding, persisted fold by fold.
* `load_folds` — first-iteration-flag accumulation concatenating persisted folds.
* the training trial loop's fold rotation (`v = f + 2; if v > 10: v = 1; t = v + 1; ...`).

External numeric kernels (`librosa.feature.melspectrogram`, `librosa.logamplitude`,
`librosa.feature.delta`) are abstracted as opaque function parameters: `M : Nat → Nat → Int`
stands for the log-mel matrix of one window (band index, STFT-frame index), and the delta
kernel is a parameter of type `(Nat → Nat → Int) → Nat → Nat → Int`.  Audio samples are
abstracted to the clip's sample count, which is all the windowing logic reads.
-/

/-! ## Windower -/

/--
Embedding of the body of

```python
def windows(data, window_size):
    start = 0
    while start < len(data):
        yield start, start + window_size
        start += (window_size / 2)
```

`fuel` bounds the number of loop iterations so the definition is structural.  The caller
`windows` passes `fuel = len`, which is enough whenever `step ≥ 1`: the `n`-th iteration has
`start = n * step ≥ n`, so at most `len` iterations satisfy `start < len` and the first
exhausted check would have failed anyway.  The source generator itself fails to terminate
when `step = window_size / 2 = 0` and the data is non-empty; that case is analysed
separately through `genStart` / `yieldsAt` below.
-/
def windowsGo (len wsize step : Nat) : Nat → Nat → List (Nat × Nat)
  | 0, _ => []
  | fuel + 1, start =>
    if start < len then (start, start + wsize) :: windowsGo len wsize step fuel (start + step)
    else []

/-- The finite sequence of `(start, start + window_size)` pairs produced by the source's
`windows` generator on a clip of `len` samples, with the fixed step `window_size / 2`. -/
def windows (len wsize : Nat) : List (Nat × Nat) :=
  windowsGo len wsize (wsize / 2) len 0

/-- Length of the Python slice `data[s:e]` for a sequence of length `len`
(`0 ≤ s ≤ e`): `min e len - min s len`. -/
def sliceLen (len s e : Nat) : Nat :=
  min e len - min s len

/-- The guard `len(sound_clip[start:end]) == window_size` from `extract_features` and
`extract_feature_array`. -/
def isFull (len wsize : Nat) (p : Nat × Nat) : Bool :=
  sliceLen len p.1 p.2 == wsize

/-- The windows that survive the full-length guard; only these produce feature tensors. -/
def fullWindows (len wsize : Nat) : List (Nat × Nat) :=
  (windows len wsize).filter (isFull len wsize)

/-- Number of produced windows whose slice has the full window length. -/
def countFull (len wsize : Nat) : Nat :=
  (fullWindows len wsize).length

/-- Value of the loop variable `start` after `n` iterations of the `windows` generator:
`start` begins at `0` and each iteration adds `step = window_size / 2`. -/
def genStart (step : Nat) : Nat → Nat
  | 0 => 0
  | n + 1 => genStart step n + step

/-- The `windows` generator reaches its `n`-th iteration and yields a pair there exactly
when the loop condition `start < len(data)` holds at that iteration; since `start` is
non-decreasing, that is `genStart step n < len`. -/
def yieldsAt (len step n : Nat) : Prop :=
  genStart step n < len

instance (len step n : Nat) : Decidable (yieldsAt len step n) := by
  unfold yieldsAt; infer_instance

/-! ## Frame Feature Encoder -/

/--
Embedding of `logspec.T.flatten()` for a log-mel matrix `M` of shape `[bands, frames]`:
the transpose has shape `[frames, bands]`, so row-major flattening puts `M b f` at flat
index `f * bands + b`; hence flat index `j` holds `M (j % bands) (j / bands)`.
-/
def logmelFlat (bands : Nat) (M : Nat → Nat → Int) (j : Nat) : Int :=
  M (j % bands) (j / bands)

/--
Entry `(b, f)` of channel 0 after `np.asarray(...).reshape(len, bands, frames, 1)`:
row-major reshape of the flat vector places flat index `b * frames + f` at `(b, f)`.
Composed with `logmelFlat` this is what the notebook actually stores at `(b, f, 0)`.
-/
def channel0 (bands frames : Nat) (M : Nat → Nat → Int) (b f : Nat) : Int :=
  logmelFlat bands M (b * frames + f)

/--
The `[bands, frames, 2]` tensor built for one window:
channel 0 as reshaped above, channel 1 as
`features[i, :, :, 1] = librosa.feature.delta(features[i, :, :, 0])`,
i.e. the abstract `delta` kernel applied to the stored (reshaped) channel 0.
-/
def frameTensor (bands frames : Nat) (M : Nat → Nat → Int)
    (delta : (Nat → Nat → Int) → Nat → Nat → Int) : List (List (List Int)) :=
  (List.range bands).map fun b =>
    (List.range frames).map fun f =>
      [channel0 bands frames M b f, delta (channel0 bands frames M) b f]

/-- Entry of a 3-D list tensor at `(b, f, c)`, with default `0` out of range. -/
def entry3 (t : List (List (List Int))) (b f c : Nat) : Int :=
  ((t.getD b []).getD f []).getD c 0

/--
Embedding of `extract_feature_array(filename, bands, frames)`:
`window_size = 512 * (frames - 1)`; for every produced window that passes the full-length
guard, one `[bands, frames, 2]` tensor is emitted.  `melOf start` abstracts the composite
`librosa.logamplitude(librosa.feature.melspectrogram(sound_clip[start:end], n_mels=bands))`
for the window beginning at `start`.
-/
def extract_feature_array (clipLen bands frames : Nat) (melOf : Nat → Nat → Nat → Int)
    (delta : (Nat → Nat → Int) → Nat → Nat → Int) : List (List (List (List Int))) :=
  (fullWindows clipLen (512 * (frames - 1))).map fun p =>
    frameTensor bands frames (melOf p.1) delta

/-! ## Label parsing and the corpus walk of `extract_features` -/

/-- The characters after the first occurrence of `sep` in `s`, or `none` when `sep` does
not occur (for non-empty `sep`); scans left to right like Python's `str.split`. -/
def afterFirstOcc (sep : List Char) : List Char → Option (List Char)
  | [] => if sep = [] then some [] else none
  | c :: rest =>
    if sep.isPrefixOf (c :: rest) then some ((c :: rest).drop sep.length)
    else afterFirstOcc sep rest

/-- The characters before the first occurrence of `sep` in `s` (all of `s` when `sep`
does not occur). -/
def beforeFirstOcc (sep : List Char) : List Char → List Char
  | [] => []
  | c :: rest =>
    if sep.isPrefixOf (c :: rest) then []
    else c :: beforeFirstOcc sep rest

/-- `s.split(sep)[1]` in Python: the segment strictly between the first occurrence of
`sep` and the following occurrence (or the end); `none` (an `IndexError`) when `sep` does
not occur in `s`. -/
def pySplitSecond (sep : List Char) (s : List Char) : Option (List Char) :=
  (afterFirstOcc sep s).map (beforeFirstOcc sep)

/-- Embedding of `label = fn.split('fold')[1].split('-')[1]`: `none` models the
`IndexError` raised when the `'fold'` or `'-'` markers are absent from the filename. -/
def parseLabel (fn : List Char) : Option (List Char) :=
  match pySplitSecond "fold".toList fn with
  | none => none
  | some seg => pySplitSecond "-".toList seg

/-- One audio file as the corpus walk sees it: its path, whether `librosa.load`
succeeds on it, and its decoded sample count. -/
structure AudioFile where
  name : List Char
  readable : Bool
  clipLen : Nat
deriving DecidableEq

/-- The per-clip part of the `extract_features` loop body: one feature per full-length
window (identified by its start index; the tensor contents live in
`extract_feature_array`/`frameTensor`) plus one copy of the clip's label per feature. -/
def extractClip (frames clipLen : Nat) (lab : List Char) : List Nat × List (List Char) :=
  ((fullWindows clipLen (512 * (frames - 1))).map Prod.fst,
   (fullWindows clipLen (512 * (frames - 1))).map fun _ => lab)

/-- One iteration of the file loop in `extract_features`: `librosa.load` may fail
(`readable = false`), then the label is parsed from the filename (may fail), then the
windows are extracted.  `none` models an uncaught exception. -/
def processFile (frames : Nat) (f : AudioFile) : Option (List Nat × List (List Char)) :=
  if f.readable then
    match parseLabel f.name with
    | none => none
    | some lab => some (extractClip frames f.clipLen lab)
  else none

/-- The file walk of `extract_features`, accumulating `log_specgrams` and `labels`.
There is no `try`/`except` in the source, so the first failing file propagates its
exception and the whole call produces nothing. -/
def extract_features_go (frames : Nat) (acc : List Nat × List (List Char)) :
    List AudioFile → Option (List Nat × List (List Char))
  | [] => some acc
  | f :: fs =>
    match processFile frames f with
    | none => none
    | some p => extract_features_go frames (acc.1 ++ p.1, acc.2 ++ p.2) fs

/-- Embedding of `extract_features` restricted to what the claims read: the ordered
accumulation of per-file window features and labels over the walked files. -/
def extract_features (frames : Nat) (files : List AudioFile) :
    Option (List Nat × List (List Char)) :=
  extract_features_go frames ([], []) files

/-! ## Label Encoder -/

/--
Row `i` of the matrix built by

```python
one_hot_encode = np.zeros((n_labels, n_unique_labels))
one_hot_encode[np.arange(n_labels), labels] = 1
```

the fancy assignment writes a `1` at column `labels[i]` (the raw label value); when
`labels[i] ≥ n_unique_labels` numpy raises `IndexError`, modelled as `none`.  (The
notebook's labels are parsed from filename digit groups, hence non-negative, so numpy's
negative-index wrapping is not reachable and is not modelled.)
-/
def one_hot_row (n l : Nat) : Option (List Nat) :=
  if l < n then some ((List.range n).map fun j => if j = l then 1 else 0) else none

/-- All rows of the one-hot matrix; any out-of-range label aborts the whole call, as the
numpy fancy assignment raises before the matrix is returned. -/
def one_hot_rows (n : Nat) : List Nat → Option (List (List Nat))
  | [] => some []
  | l :: ls =>
    match one_hot_row n l, one_hot_rows n ls with
    | some r, some rs => some (r :: rs)
    | _, _ => none

/-- Embedding of `one_hot_encode(labels)`: `n_unique_labels = len(np.unique(labels))` is
the number of distinct input values, and each row gets its `1` at column equal to the raw
label value. -/
def one_hot_encode (labels : List Nat) : Option (List (List Nat)) :=
  one_hot_rows labels.dedup.length labels

/-- `np.unique(labels)`: the distinct input values in ascending order. -/
def np_unique (labels : List Nat) : List Nat :=
  (List.insertionSort (· ≤ ·) labels).dedup

/-! ## Corpus Extractor persistence (`save_folds`) -/

/-- The label matrices persisted by `save_folds`: the loop runs
`features, labels = extract_features(parent_dir, [fold_name]); labels = one_hot_encode(labels)`
separately for every fold, so each fold's labels are one-hot encoded per call, against
that fold's own vocabulary. -/
def save_folds_labels (foldLabels : List (List Nat)) : List (Option (List (List Nat))) :=
  foldLabels.map one_hot_encode

/-- Column count of a persisted label matrix (0 for an error or an empty matrix). -/
def labelMatrixWidth (m : Option (List (List Nat))) : Nat :=
  ((m.getD []).headD []).length

/-- The widths of the label matrices persisted for each fold, in fold order. -/
def savedWidths (foldLabels : List (List Nat)) : List Nat :=
  (save_folds_labels foldLabels).map labelMatrixWidth

/-! ## Fold Loader/Aggregator (`load_folds`) -/

/-- The `subsequent_fold = True` portion of the `load_folds` loop: every further fold is
loaded (`none` models a failing `np.load`) and concatenated onto the accumulated
`(features, labels)` along the example axis. -/
def load_folds_go {α β : Type} (store : Nat → Option (List α × List β))
    (acc : List α × List β) : List Nat → Option (List α × List β)
  | [] => some acc
  | k :: ks =>
    match store k with
    | none => none
    | some p => load_folds_go store (acc.1 ++ p.1, acc.2 ++ p.2) ks

/--
Embedding of

```python
def load_folds(folds):
    subsequent_fold = False
    for k in range(len(folds)):
        loaded_features = np.load(feature_file); loaded_labels = np.load(labels_file)
        if subsequent_fold: features = concat; labels = concat
        else: features = loaded_features; labels = loaded_labels; subsequent_fold = True
    return features, labels
```

`store k` is fold `k`'s persisted `(features, labels)` pair, `none` when its files are
absent.  On an empty `folds` list the local `features` is never assigned and the final
`return` raises `NameError`, modelled as `none`.
-/
def load_folds {α β : Type} (store : Nat → Option (List α × List β)) :
    List Nat → Option (List α × List β)
  | [] => none
  | k :: ks =>
    match store k with
    | none => none
    | some p => load_folds_go store p ks

/-! ## Training Orchestrator fold rotation -/

/-- The training folds of trial `f`: `load_folds([f, f+1])`. -/
def trainFolds (f : Nat) : List Nat :=
  [f, f + 1]

/-- The validation fold of trial `f`: `v = f + 2; if v > 10: v = 1`. -/
def valFold (f : Nat) : Nat :=
  if f + 2 > 10 then 1 else f + 2

/-- The test fold of trial `f`: `t = v + 1; if t > 10: t = 1`. -/
def testFold (f : Nat) : Nat :=
  if valFold f + 1 > 10 then 1 else valFold f + 1

/-! ## Concrete instances used to evaluate the code at specific inputs -/

/-- A concrete log-mel matrix whose entries encode their own (band, frame) position,
so that any rearrangement of entries is visible: `sampleMel b f = 10 * b + f`. -/
def sampleMel (b f : Nat) : Int :=
  10 * b + f

/-- A trivial instantiation of the abstract delta kernel. -/
def zeroDelta (_M : Nat → Nat → Int) (_b _f : Nat) : Int :=
  0

/-- A file on which `librosa.load` fails (unreadable / corrupt audio). -/
def badFile : AudioFile :=
  ⟨"fold1/bad.wav".toList, false, 0⟩

/-- A readable file with a well-formed UrbanSound8K name (class id `3`) and exactly one
full window of samples for `frames = 2` (window size `512 * (2 - 1) = 512`). -/
def goodFile : AudioFile :=
  ⟨"fold1/101-3-0-0.wav".toList, true, 512⟩

/-- A persisted-fold store in which every fold is present. -/
def storeU : Nat → Option (List Nat × List Nat) :=
  fun _ => some ([0], [0])

/-- A persisted-fold store with distinguishable per-fold contents. -/
def storeW : Nat → Option (List Nat × List Nat) :=
  fun k => some ([k, k + 10], [k])

/-! ## Lemmas about the Windower -/

theorem windowsGo_mem {len wsize step : Nat} :
    ∀ (fuel start : Nat) (p : Nat × Nat), p ∈ windowsGo len wsize step fuel start →
      start ≤ p.1 ∧ p.1 < len ∧ p.2 = p.1 + wsize := by
  intro fuel
  induction fuel with
  | zero => intro start p h; simp [windowsGo] at h
  | succ m ih =>
    intro start p h
    simp only [windowsGo] at h
    by_cases hs : start < len
    · rw [if_pos hs] at h
      rcases List.mem_cons.mp h with h1 | h2
      · subst h1; exact ⟨Nat.le_refl _, hs, rfl⟩
      · obtain ⟨h3, h4, h5⟩ := ih _ p h2
        exact ⟨Nat.le_trans (Nat.le_add_right _ _) h3, h4, h5⟩
    · rw [if_neg hs] at h
      simp at h

theorem windowsGo_getElem (len wsize step : Nat) (hstep : 0 < step) :
    ∀ (fuel start n : Nat), len ≤ start + fuel →
      (windowsGo len wsize step fuel start)[n]? =
        if start + n * step < len then
          some (start + n * step, start + n * step + wsize)
        else none := by
  intro fuel
  induction fuel with
  | zero =>
    intro start n hle
    have h : ¬ start + n * step < len := by omega
    simp [windowsGo, h]
  | succ m ih =>
    intro start n hle
    by_cases hs : start < len
    · simp only [windowsGo, if_pos hs]
      cases n with
      | zero => simp [hs]
      | succ k =>
        have h2 : len ≤ start + step + m := by omega
        rw [List.getElem?_cons_succ, ih (start + step) k h2]
        have harith : start + step + k * step = start + (k + 1) * step := by ring
        rw [harith]
    · have h : ¬ start + n * step < len := by omega
      simp [windowsGo, if_neg hs, h]

theorem windowsGo_filter_length (len wsize step : Nat) (hstep : 0 < step) (hw : 0 < wsize) :
    ∀ (fuel start : Nat), len ≤ start + fuel →
      ((windowsGo len wsize step fuel start).filter (isFull len wsize)).length =
        if start + wsize ≤ len then (len - wsize - start) / step + 1 else 0 := by
  intro fuel
  induction fuel with
  | zero =>
    intro start hle
    have h : ¬ start + wsize ≤ len := by omega
    simp [windowsGo, h]
  | succ m ih =>
    intro start hle
    by_cases hs : start < len
    · simp only [windowsGo, if_pos hs]
      have hrec := ih (start + step) (by omega)
      by_cases hfull : start + wsize ≤ len
      · have hb : isFull len wsize (start, start + wsize) = true := by
          simp only [isFull, sliceLen, beq_iff_eq]
          rw [Nat.min_eq_left hfull, Nat.min_eq_left (Nat.le_of_lt hs)]
          omega
        rw [List.filter_cons_of_pos hb, List.length_cons, hrec, if_pos hfull]
        by_cases h2 : start + step + wsize ≤ len
        · rw [if_pos h2]
          have hA : step ≤ len - wsize - start := by omega
          have hsub : len - wsize - (start + step) = len - wsize - start - step := by omega
          rw [hsub, ← Nat.div_eq_sub_div hstep hA]
        · rw [if_neg h2]
          have hlt : len - wsize - start < step := by omega
          rw [Nat.div_eq_of_lt hlt]
      · have hb : isFull len wsize (start, start + wsize) = false := by
          simp only [isFull, beq_eq_false_iff_ne, ne_eq, sliceLen]
          rw [Nat.min_eq_right (by omega : len ≤ start + wsize),
            Nat.min_eq_left (Nat.le_of_lt hs)]
          omega
        rw [List.filter_cons_of_neg (by simp [hb]), hrec, if_neg (by omega), if_neg hfull]
    · have h : ¬ start + wsize ≤ len := by omega
      simp [windowsGo, if_neg hs, h]

theorem windows_mem {len wsize : Nat} (p : Nat × Nat) (h : p ∈ windows len wsize) :
    p.1 < len ∧ p.2 = p.1 + wsize :=
  ⟨(windowsGo_mem len 0 p h).2.1, (windowsGo_mem len 0 p h).2.2⟩

theorem windows_getElem (len wsize : Nat) (h2 : 2 ≤ wsize) (n : Nat) :
    (windows len wsize)[n]? =
      if n * (wsize / 2) < len then
        some (n * (wsize / 2), n * (wsize / 2) + wsize)
      else none := by
  have hstep : 0 < wsize / 2 := (Nat.one_le_div_iff (by omega)).mpr h2
  have := windowsGo_getElem len wsize (wsize / 2) hstep len 0 n (by omega)
  simpa [windows] using this

theorem fullWindows_eq_nil {len wsize : Nat} (h : len < wsize) :
    fullWindows len wsize = [] := by
  rw [fullWindows, List.filter_eq_nil_iff]
  intro p hp
  obtain ⟨h1, h3⟩ := windows_mem p hp
  simp only [isFull, sliceLen, beq_iff_eq, h3]
  rw [Nat.min_eq_right (by omega : len ≤ p.1 + wsize),
    Nat.min_eq_left (Nat.le_of_lt h1)]
  omega

theorem countFull_eq {len wsize : Nat} (h2 : 2 ≤ wsize) (hlw : wsize ≤ len) :
    countFull len wsize = (len - wsize) / (wsize / 2) + 1 := by
  have hstep : 0 < wsize / 2 := (Nat.one_le_div_iff (by omega)).mpr h2
  have h := windowsGo_filter_length len wsize (wsize / 2) hstep (by omega) len 0 (by omega)
  simpa [countFull, fullWindows, windows, hlw] using h

theorem genStart_eq (step n : Nat) : genStart step n = n * step := by
  induction n with
  | zero => simp [genStart]
  | succ k ih => simp [genStart, ih, Nat.succ_mul]

/-! ## Lemmas about the Label Encoder -/

theorem one_hot_rows_eq (n : Nat) :
    ∀ (ls : List Nat), (∀ l ∈ ls, l < n) →
      one_hot_rows n ls =
        some (ls.map fun l => (List.range n).map fun j => if j = l then 1 else 0) := by
  intro ls
  induction ls with
  | nil => intro _; rfl
  | cons a t ih =>
    intro h
    have ha : a < n := h a (List.mem_cons_self a t)
    have ht := ih fun l hl => h l (List.mem_cons_of_mem a hl)
    simp [one_hot_rows, one_hot_row, if_pos ha, ht]

theorem one_hot_encode_eq (labels : List Nat)
    (h : ∀ l ∈ labels, l < labels.dedup.length) :
    one_hot_encode labels =
      some (labels.map fun l =>
        (List.range labels.dedup.length).map fun j => if j = l then 1 else 0) :=
  one_hot_rows_eq _ labels h

theorem labels_toFinset_eq_range (labels : List Nat)
    (h : ∀ l ∈ labels, l < labels.dedup.length) :
    labels.toFinset = Finset.range labels.dedup.length := by
  apply Finset.eq_of_subset_of_card_le
  · intro x hx
    rw [List.mem_toFinset] at hx
    exact Finset.mem_range.mpr (h x hx)
  · rw [Finset.card_range, List.card_toFinset]

theorem np_unique_sorted (labels : List Nat) : (np_unique labels).Sorted (· ≤ ·) :=
  List.Pairwise.sublist (List.dedup_sublist _)
    (List.sorted_insertionSort (· ≤ ·) labels)

theorem np_unique_eq_range (labels : List Nat)
    (h : ∀ l ∈ labels, l < labels.dedup.length) :
    np_unique labels = List.range labels.dedup.length := by
  have hnd : (np_unique labels).Nodup := List.nodup_dedup _
  have hndr : (List.range labels.dedup.length).Nodup := List.nodup_range _
  have hmem : ∀ a, a ∈ np_unique labels ↔ a ∈ labels := by
    intro a
    rw [np_unique, List.mem_dedup]
    exact (List.perm_insertionSort (· ≤ ·) labels).mem_iff
  have htf : (np_unique labels).toFinset = (List.range labels.dedup.length).toFinset := by
    ext a
    rw [List.mem_toFinset, List.mem_toFinset, hmem, List.mem_range]
    constructor
    · exact h a
    · intro ha
      have hfr := labels_toFinset_eq_range labels h
      have hmem2 : a ∈ labels.toFinset := by
        rw [hfr]; exact Finset.mem_range.mpr ha
      exact List.mem_toFinset.mp hmem2
  exact List.eq_of_perm_of_sorted
    (List.perm_of_nodup_nodup_toFinset_eq hnd hndr htf)
    (np_unique_sorted labels)
    ((List.pairwise_lt_range _).imp fun hab => le_of_lt hab)

theorem count_one_map_not_mem (r : List Nat) (l : Nat) (h : l ∉ r) :
    ((r.map fun j => if j = l then (1 : Nat) else 0).count 1) = 0 := by
  induction r with
  | nil => rfl
  | cons a t ih =>
    have ha : a ≠ l := fun hal => h (hal ▸ List.mem_cons_self a t)
    have ht := ih fun hlt => h (List.mem_cons_of_mem a hlt)
    simp [List.count_cons, ht, if_neg ha]

theorem count_one_map_nodup (r : List Nat) (l : Nat) (hnd : r.Nodup) (hmem : l ∈ r) :
    ((r.map fun j => if j = l then (1 : Nat) else 0).count 1) = 1 := by
  induction r with
  | nil => simp at hmem
  | cons a t ih =>
    rw [List.nodup_cons] at hnd
    by_cases hal : a = l
    · subst hal
      have hnt := count_one_map_not_mem t a hnd.1
      simp [List.count_cons, hnt]
    · rcases List.mem_cons.mp hmem with h1 | h2
      · exact absurd h1.symm hal
      · have := ih hnd.2 h2
        simp [List.count_cons, this, if_neg hal]

theorem one_hot_row_entries (r : List Nat) (l : Nat) :
    ∀ x ∈ r.map fun j => if j = l then (1 : Nat) else 0, x = 1 ∨ x = 0 := by
  intro x hx
  rw [List.mem_map] at hx
  obtain ⟨j, _, hval⟩ := hx
  by_cases hjl : j = l
  · rw [if_pos hjl] at hval; exact Or.inl hval.symm
  · rw [if_neg hjl] at hval; exact Or.inr hval.symm

theorem labelMatrixWidth_one_hot (labels : List Nat) (hne : labels ≠ [])
    (h : ∀ l ∈ labels, l < labels.dedup.length) :
    labelMatrixWidth (one_hot_encode labels) = labels.dedup.length := by
  rw [one_hot_encode_eq labels h]
  cases labels with
  | nil => exact absurd rfl hne
  | cons a t => simp [labelMatrixWidth]

/-! ## Lemmas about the Fold Loader/Aggregator -/

theorem load_folds_go_eq {α β : Type} (store : Nat → Option (List α × List β)) :
    ∀ (ks : List Nat) (acc : List α × List β), (∀ k ∈ ks, store k ≠ none) →
      load_folds_go store acc ks =
        some (acc.1 ++ (ks.map fun k => ((store k).getD ([], [])).1).flatten,
              acc.2 ++ (ks.map fun k => ((store k).getD ([], [])).2).flatten) := by
  intro ks
  induction ks with
  | nil => intro acc _; simp [load_folds_go]
  | cons k t ih =>
    intro acc h
    have hk := h k (List.mem_cons_self k t)
    cases hsk : store k with
    | none => exact absurd hsk hk
    | some p =>
      have ht := ih (acc.1 ++ p.1, acc.2 ++ p.2) fun x hx => h x (List.mem_cons_of_mem k hx)
      simp [load_folds_go, hsk, ht, List.append_assoc]

theorem load_folds_eq {α β : Type} (store : Nat → Option (List α × List β))
    (folds : List Nat) (hne : folds ≠ []) (h : ∀ k ∈ folds, store k ≠ none) :
    load_folds store folds =
      some ((folds.map fun k => ((store k).getD ([], [])).1).flatten,
            (folds.map fun k => ((store k).getD ([], [])).2).flatten) := by
  cases folds with
  | nil => exact absurd rfl hne
  | cons k t =>
    have hk := h k (List.mem_cons_self k t)
    cases hsk : store k with
    | none => exact absurd hsk hk
    | some p =>
      have ht := load_folds_go_eq store t p fun x hx => h x (List.mem_cons_of_mem k hx)
      simp [load_folds, hsk, ht]

/-! ## Lemmas about the corpus walk -/

theorem processFile_eq_none {frames : Nat} (f : AudioFile)
    (h : f.readable = false ∨ parseLabel f.name = none) : processFile frames f = none := by
  rcases h with h | h
  · simp [processFile, h]
  · cases hr : f.readable
    · simp [processFile, hr]
    · simp [processFile, hr, h]

theorem extract_features_go_none (frames : Nat) :
    ∀ (files : List AudioFile) (acc : List Nat × List (List Char)),
      (∃ f ∈ files, f.readable = false ∨ parseLabel f.name = none) →
      extract_features_go frames acc files = none := by
  intro files
  induction files with
  | nil => intro acc h; simp at h
  | cons g t ih =>
    intro acc h
    rcases h with ⟨f, hf, hfail⟩
    rcases List.mem_cons.mp hf with rfl | hft
    · simp [extract_features_go, processFile_eq_none f hfail]
    · cases hp : processFile frames g with
      | none => simp [extract_features_go, hp]
      | some p =>
        simp only [extract_features_go, hp]
        exact ih _ ⟨f, hft, hfail⟩

/-! ## Claim C1 — Label Encoder -/

/-- C1 counterexample: `one_hot_encode` does not return a matrix for every integer label
sequence.  On the input `[2]` there is one distinct value, so the allocated matrix has one
column, but the fancy assignment writes at column index `2` (the raw label value, not the
label's ordinal position `0`), which raises `IndexError`. -/
theorem one_hot_encode_cex : one_hot_encode [2] = none := by decide

/-- C1 (amended): whenever every label is below the distinct-value count (equivalently,
the distinct values are exactly `0, …, k-1`), `one_hot_encode` returns a matrix with one
row per input label and `k` columns, each row holding a single `1` at column equal to the
raw label value — which under this hypothesis coincides with the label's ordinal position
among the distinct values in ascending order, since `np.unique` of the input is exactly
`[0, …, k-1]`.  Outside this hypothesis the call fails (see the counterexample): the
column index is the raw label value, not the ordinal position. -/
theorem one_hot_encode_spec (labels : List Nat)
    (h : ∀ l ∈ labels, l < labels.dedup.length) :
    one_hot_encode labels =
      some (labels.map fun l =>
        (List.range labels.dedup.length).map fun j => if j = l then 1 else 0) ∧
    np_unique labels = List.range labels.dedup.length ∧
    ∀ l ∈ labels,
      ((List.range labels.dedup.length).map fun j =>
        if j = l then (1 : Nat) else 0).length = labels.dedup.length ∧
      ((List.range labels.dedup.length).map fun j =>
        if j = l then (1 : Nat) else 0).count 1 = 1 ∧
      ∀ x ∈ (List.range labels.dedup.length).map fun j =>
        if j = l then (1 : Nat) else 0, x = 1 ∨ x = 0 := by
  refine ⟨one_hot_encode_eq labels h, np_unique_eq_range labels h, ?_⟩
  intro l hl
  exact ⟨by simp,
    count_one_map_nodup _ _ (List.nodup_range _) (List.mem_range.mpr (h l hl)),
    one_hot_row_entries _ _⟩

/-- Witness for C1's amended theorem at the concrete input `[1, 0, 2, 1]`. -/
theorem one_hot_encode_spec_witness :
    (∀ l ∈ ([1, 0, 2, 1] : List Nat), l < ([1, 0, 2, 1] : List Nat).dedup.length) ∧
    one_hot_encode [1, 0, 2, 1] =
      some (([1, 0, 2, 1] : List Nat).map fun l =>
        (List.range ([1, 0, 2, 1] : List Nat).dedup.length).map fun j =>
          if j = l then 1 else 0) :=
  ⟨by decide, (one_hot_encode_spec [1, 0, 2, 1] (by decide)).1⟩

/-! ## Claim C2 — Frame Feature Encoder channel 0 -/

/-- C2: evaluating the encoder at a failing input.  The output tensor does have shape
`[bands, frames, 2]`, but channel 0 at position `(b, f)` is NOT the log-mel value at band
`b`, frame `f`: with `bands = 2`, `frames = 3` and the position-encoding log-mel matrix
`sampleMel`, position `(0, 1)` of channel 0 holds `sampleMel 1 0` (band 1, frame 0), not
`sampleMel 0 1`.  The `logspec.T.flatten()` step stores `M b f` at flat index
`f * bands + b`, while the later `reshape(len, bands, frames, 1)` reads flat index
`b * frames + f` for position `(b, f)` — a transpose composed with a reshape that is not
its inverse, so the entries are permuted. -/
theorem frameTensor_channel0_eval :
    (frameTensor 2 3 sampleMel zeroDelta).length = 2 ∧
    (∀ row ∈ frameTensor 2 3 sampleMel zeroDelta,
      row.length = 3 ∧ ∀ cell ∈ row, cell.length = 2) ∧
    entry3 (frameTensor 2 3 sampleMel zeroDelta) 0 1 0 = sampleMel 1 0 ∧
    entry3 (frameTensor 2 3 sampleMel zeroDelta) 0 1 0 ≠ sampleMel 0 1 := by
  decide

/-! ## Claim C3 — Windower window count -/

/-- C3 counterexample: the count formula `floor((L - W) / (W/2)) + 1` fails for short
sequences.  At `L = 0`, `W = 8` the generator produces no windows at all (`countFull` is
`0`), while the claimed formula evaluates to `(0 - 8) / 4 + 1 = -1`. -/
theorem windows_count_formula_cex :
    ¬ ((countFull 0 8 : Int) = ((0 : Int) - 8) / ((8 : Int) / 2) + 1) := by
  decide

/-- C3 (amended): for `2 ≤ W` (so that the step `W / 2` is positive and the generator
terminates) and `W ≤ L`, the `i`-th produced window starts at `i * (W / 2)` — so starts
are `0, W/2, 2*(W/2), …`, advancing by exactly `W / 2` — each window ends at its start
plus `W`, and the number of produced windows whose slice has length `≥ W` (equivalently
`= W`, as a slice is never longer than `W`) is `(L - W) / (W / 2) + 1` in natural-number
(floor) arithmetic.  For `L < W` the true count is `0` and the claimed formula can be
negative (see the counterexample). -/
theorem windows_count_formula (L W : Nat) (h2 : 2 ≤ W) (hWL : W ≤ L) :
    (∀ (i : Nat) (p : Nat × Nat), (windows L W)[i]? = some p →
      p.1 = i * (W / 2) ∧ p.2 = p.1 + W) ∧
    countFull L W = (L - W) / (W / 2) + 1 := by
  constructor
  · intro i p hp
    rw [windows_getElem L W h2 i] at hp
    by_cases hi : i * (W / 2) < L
    · rw [if_pos hi] at hp
      injection hp with hq
      subst hq
      exact ⟨rfl, rfl⟩
    · rw [if_neg hi] at hp
      simp at hp
  · exact countFull_eq h2 hWL

/-- Witness for C3's amended theorem at `L = 5`, `W = 4`. -/
theorem windows_count_formula_witness :
    2 ≤ 4 ∧ 4 ≤ 5 ∧ countFull 5 4 = (5 - 4) / (4 / 2) + 1 :=
  ⟨by decide, by decide, (windows_count_formula 5 4 (by decide) (by decide)).2⟩

/-! ## Claim C4 — Training Orchestrator fold rotation -/

/-- C4: for every trial index `f` with `1 ≤ f ≤ 9` and max fold id 10, the trial trains
on folds `f` and `f + 1`, validates on `f + 2` wrapped to `1` when it exceeds `10`, tests
on the next fold with the same wraparound; every fold index stays within `1..10` and no
fold occupies more than one role in the same trial. -/
theorem fold_rotation_roles (f : Nat) (h1 : 1 ≤ f) (h9 : f ≤ 9) :
    (∀ k ∈ trainFolds f, 1 ≤ k ∧ k ≤ 10) ∧
    1 ≤ valFold f ∧ valFold f ≤ 10 ∧ 1 ≤ testFold f ∧ testFold f ≤ 10 ∧
    valFold f = (if f + 2 > 10 then 1 else f + 2) ∧
    testFold f = (if valFold f + 1 > 10 then 1 else valFold f + 1) ∧
    valFold f ∉ trainFolds f ∧ testFold f ∉ trainFolds f ∧ valFold f ≠ testFold f := by
  interval_cases f <;> decide

/-- Witness for C4 at the spec's scenario `f = 9`: validation fold `11 → 1`, test fold
`2`. -/
theorem fold_rotation_roles_witness :
    1 ≤ 9 ∧ (9 : Nat) ≤ 9 ∧
    ((∀ k ∈ trainFolds 9, 1 ≤ k ∧ k ≤ 10) ∧
     1 ≤ valFold 9 ∧ valFold 9 ≤ 10 ∧ 1 ≤ testFold 9 ∧ testFold 9 ≤ 10 ∧
     valFold 9 = (if 9 + 2 > 10 then 1 else 9 + 2) ∧
     testFold 9 = (if valFold 9 + 1 > 10 then 1 else valFold 9 + 1) ∧
     valFold 9 ∉ trainFolds 9 ∧ testFold 9 ∉ trainFolds 9 ∧ valFold 9 ≠ testFold 9) :=
  ⟨by decide, by decide, fold_rotation_roles 9 (by decide) (by decide)⟩

/-! ## Claim C5 — per-file failure handling during extraction -/

/-- C5 counterexample: the corpus walk has no recovery.  With an unreadable file followed
by a good file, `extract_features` produces nothing at all — the good file's features,
which the walk on the good file alone does produce, are lost because the first failure
aborts the whole call (there is no `try`/`except` in the source). -/
theorem extract_features_abort_cex :
    extract_features 2 [badFile, goodFile] = none ∧
    extract_features 2 [goodFile] = some ([0], [['3']]) := by
  decide

/-- C5 (amended): a failure to process one file — an unreadable audio file, or a filename
missing the expected marker (an `IndexError`, not a dedicated `LabelParseError`, in the
source) — aborts the entire extraction call; the remaining files are NOT
processed and no per-fold result is produced.  The bad file is not skipped. -/
theorem extract_features_aborts (frames : Nat) (files : List AudioFile)
    (h : ∃ f ∈ files, f.readable = false ∨ parseLabel f.name = none) :
    extract_features frames files = none :=
  extract_features_go_none frames files ([], []) h

/-- Witness for C5's amended theorem on a one-file corpus containing an unreadable file. -/
theorem extract_features_aborts_witness :
    (∃ f ∈ [badFile], f.readable = false ∨ parseLabel f.name = none) ∧
    extract_features 2 [badFile] = none :=
  ⟨by decide, extract_features_aborts 2 [badFile] (by decide)⟩

/-! ## Claim C6 — per-fold vs corpus-global one-hot encoding -/

/-- C6 counterexample: `save_folds` one-hot encodes each fold separately, so two folds
with different distinct-label sets get label matrices of different widths: for fold label
lists `[0, 1]` and `[0]` the persisted widths are `2` and `1`.  The encoding is not
computed once over the full corpus vocabulary. -/
theorem save_folds_widths_cex :
    (savedWidths [[0, 1], [0]]).getD 0 0 = 2 ∧
    (savedWidths [[0, 1], [0]]).getD 1 0 = 1 ∧
    (savedWidths [[0, 1], [0]]).getD 0 0 ≠ (savedWidths [[0, 1], [0]]).getD 1 0 := by
  decide

/-- C6 (amended): the one-hot label encoding persisted by `save_folds` is computed per
fold (one `one_hot_encode` call inside the fold loop), so each persisted fold's label
matrix width equals that fold's own distinct-label count; two folds agree in width only
when their distinct-label counts coincide, and the column-to-class mapping is relative to
each fold's own labels. -/
theorem save_folds_widths :
    ∀ (foldLabels : List (List Nat)),
      (∀ ls ∈ foldLabels, ls ≠ [] ∧ ∀ l ∈ ls, l < ls.dedup.length) →
      savedWidths foldLabels = foldLabels.map fun ls => ls.dedup.length := by
  intro foldLabels
  induction foldLabels with
  | nil => intro _; rfl
  | cons a t ih =>
    intro h
    have ha := h a (List.mem_cons_self a t)
    have ht := ih fun ls hls => h ls (List.mem_cons_of_mem a hls)
    simp only [savedWidths, save_folds_labels, List.map_cons] at ht ⊢
    rw [labelMatrixWidth_one_hot a ha.1 ha.2, ht]

/-- Witness for C6's amended theorem at the two-fold corpus `[[0, 1], [0]]`. -/
theorem save_folds_widths_witness :
    (∀ ls ∈ ([[0, 1], [0]] : List (List Nat)), ls ≠ [] ∧ ∀ l ∈ ls, l < ls.dedup.length) ∧
    savedWidths [[0, 1], [0]] = ([[0, 1], [0]] : List (List Nat)).map fun ls =>
      ls.dedup.length :=
  ⟨by decide, save_folds_widths [[0, 1], [0]] (by decide)⟩

/-! ## Claim C7 — clips shorter than one window -/

/-- C7: for every clip whose sample count is smaller than one window
(`window_size = 512 * (frames - 1)`), the clip-level extraction returns an empty
features/labels result — zero tensors and zero labels — and, being a total function on
such inputs, raises no error. -/
theorem short_clip_empty (clipLen bands frames : Nat) (melOf : Nat → Nat → Nat → Int)
    (delta : (Nat → Nat → Int) → Nat → Nat → Int) (lab : List Char)
    (h : clipLen < 512 * (frames - 1)) :
    extract_feature_array clipLen bands frames melOf delta = [] ∧
    extractClip frames clipLen lab = ([], []) := by
  have hnil := fullWindows_eq_nil h
  constructor
  · simp [extract_feature_array, hnil]
  · simp [extractClip, hnil]

/-- Witness for C7 at a 100-sample clip with the default `bands = 60`, `frames = 41`
(window size 20480). -/
theorem short_clip_empty_witness :
    100 < 512 * (41 - 1) ∧
    extract_feature_array 100 60 41 (fun _ _ _ => 0) (fun _ _ _ => 0) = [] ∧
    extractClip 41 100 ['3'] = ([], []) :=
  ⟨by decide, short_clip_empty 100 60 41 (fun _ _ _ => 0) (fun _ _ _ => 0) ['3'] (by decide)⟩

/-! ## Claim C8 — Fold Loader/Aggregator concatenation -/

/-- C8 counterexample: `load_folds` does not return the (empty) concatenation for the
empty fold list, even though every requested fold's persisted pair trivially exists: the
`subsequent_fold` flag is never set, the local `features` is never assigned, and the
final `return` raises `NameError` — modelled as `none`. -/
theorem load_folds_empty_cex :
    load_folds storeU [] = none ∧ load_folds storeU [] ≠ some ([], []) := by
  decide

/-- C8 (amended): for every NON-EMPTY ordered list of fold identifiers whose persisted
`(features, labels)` pairs all exist, `load_folds` returns the concatenation of the
per-fold arrays along the example axis in the given list order; the total row count is
the sum of the per-fold row counts, and the label list is the in-order concatenation of
the per-fold label lists, so example `i`'s label in the aggregate is the label paired
with that example in its source fold at its source position. -/
theorem load_folds_concat {α β : Type} (store : Nat → Option (List α × List β))
    (folds : List Nat) (hne : folds ≠ []) (h : ∀ k ∈ folds, store k ≠ none) :
    load_folds store folds =
      some ((folds.map fun k => ((store k).getD ([], [])).1).flatten,
            (folds.map fun k => ((store k).getD ([], [])).2).flatten) ∧
    ((folds.map fun k => ((store k).getD ([], [])).1).flatten).length =
      (folds.map fun k => (((store k).getD ([], [])).1).length).sum ∧
    ((folds.map fun k => ((store k).getD ([], [])).2).flatten).length =
      (folds.map fun k => (((store k).getD ([], [])).2).length).sum := by
  refine ⟨load_folds_eq store folds hne h, ?_, ?_⟩
  · rw [List.length_flatten, List.map_map]
    exact rfl
  · rw [List.length_flatten, List.map_map]
    exact rfl

/-- Witness for C8's amended theorem: loading folds `[2, 1]` from a store with
distinguishable contents concatenates them in the given order. -/
theorem load_folds_concat_witness :
    (([2, 1] : List Nat) ≠ []) ∧ (∀ k ∈ ([2, 1] : List Nat), storeW k ≠ none) ∧
    load_folds storeW [2, 1] =
      some ((([2, 1] : List Nat).map fun k => ((storeW k).getD ([], [])).1).flatten,
            (([2, 1] : List Nat).map fun k => ((storeW k).getD ([], [])).2).flatten) :=
  ⟨by decide, by decide, (load_folds_concat storeW [2, 1] (by decide) (by decide)).1⟩

/-! ## Claim C9 — sequences shorter than one window -/

/-- C9 counterexample: for `L = 0` the claim fails — the `while start < len(data)` guard
is false immediately, so the generator yields nothing at all, not "at least the first
index pair `(0, W)`". -/
theorem windows_empty_clip_cex : ¬ ((0, 8) ∈ windows 0 8) := by decide

/-- C9 (amended): for `0 < L < W` the generator does yield the pair `(0, W)` first, and
the consumer's full-length guard discards every produced window, so the clip yields zero
usable frames without error; for `L = 0` the generator yields nothing (still zero usable
frames without error). -/
theorem windows_short_clip (L W : Nat) (h0 : 0 < L) (h1 : L < W) :
    (windows L W).head? = some (0, W) ∧ countFull L W = 0 := by
  constructor
  · cases L with
    | zero => omega
    | succ n => simp [windows, windowsGo]
  · have hnil := fullWindows_eq_nil h1
    simp [countFull, hnil]

/-- Witness for C9's amended theorem at `L = 3`, `W = 8`. -/
theorem windows_short_clip_witness :
    0 < 3 ∧ 3 < 8 ∧ ((windows 3 8).head? = some (0, 8) ∧ countFull 3 8 = 0) :=
  ⟨by decide, by decide, windows_short_clip 3 8 (by decide) (by decide)⟩

/-! ## Claim C10 — termination of the windows generator -/

/-- C10: the set of iterations at which the `windows` generator yields a pair is finite —
i.e. the generator terminates on a finite data sequence — if and only if the integer
step `window_size / 2` is at least 1 (that is, `window_size ≥ 2`) or the data sequence is
empty; for `window_size ≤ 1` and non-empty data, `start` stays at `0` forever and the
generator yields pairs at every iteration. -/
theorem windows_terminates_iff (wsize L : Nat) :
    {n : Nat | yieldsAt L (wsize / 2) n}.Finite ↔ (2 ≤ wsize ∨ L = 0) := by
  constructor
  · intro hfin
    by_contra hcon
    push_neg at hcon
    obtain ⟨hw, hL⟩ := hcon
    have hstep : wsize / 2 = 0 := Nat.div_eq_of_lt (by omega)
    have huniv : {n : Nat | yieldsAt L (wsize / 2) n} = Set.univ := by
      ext n
      simp only [Set.mem_setOf_eq, yieldsAt, genStart_eq, hstep, Nat.mul_zero,
        Set.mem_univ, iff_true]
      omega
    rw [huniv] at hfin
    exact Set.infinite_univ hfin
  · intro h
    rcases h with h2 | hL
    · apply Set.Finite.subset (Set.finite_Iio L)
      intro n hn
      simp only [Set.mem_setOf_eq, yieldsAt, genStart_eq] at hn
      have hstep : 0 < wsize / 2 := (Nat.one_le_div_iff (by omega)).mpr h2
      have hle : n ≤ n * (wsize / 2) := by
        calc n = n * 1 := (Nat.mul_one n).symm
        _ ≤ n * (wsize / 2) := Nat.mul_le_mul_left n hstep
      exact Set.mem_Iio.mpr (Nat.lt_of_le_of_lt hle hn)
    · subst hL
      have hempty : {n : Nat | yieldsAt 0 (wsize / 2) n} = ∅ := by
        ext n
        simp [yieldsAt]
      rw [hempty]
      exact Set.finite_empty
